import Mathlib

/- Verification of the core algorithms of the `transient` VM manager
(image store, VM state store, configuration composition, Imagefile
validation, image-spec parsing, stream decompression, SSH connection
loop, and byte formatting), as a shallow embedding of the Python source
in `transient/`. Pure helpers are translated as Lean functions; the
stateful store operations are translated as explicit traces of the
filesystem actions the Python code performs, interpreted over a small
filesystem state. -/

set_option maxHeartbeats 1000000

namespace TransientSpec

/- ------------------------------------------------------------------ -/
/- Storage-safe name encoding (transient/store.py `storage_safe_encode`
   and `storage_safe_decode`; identical copies live in
   transient/image.py). Strings are modelled as lists of characters;
   for the ASCII inputs of the claims Python percent-encoding operates
   character by character, as modelled here. -/

/-- Python `urllib.parse.quote`'s set of never-quoted bytes
(ASCII letters, digits, and the characters underscore, dot, dash,
tilde) with the call's `safe` parameter empty. -/
def isAlwaysSafe (c : Char) : Bool :=
  c.isAlpha || c.isDigit || c = '_' || c = '.' || c = '-' || c = '~'

/-- Uppercase hexadecimal digit used by Python percent-encoding. -/
def hexDigitUpper (n : Nat) : Char :=
  if n < 10 then Char.ofNat (48 + n) else Char.ofNat (55 + n)

/-- Percent-encoding of one character, as `urllib.parse.quote` does it:
safe characters stand for themselves, all others become a
percent-escape with two uppercase hex digits. -/
def quoteChar (c : Char) : List Char :=
  if isAlwaysSafe c then [c]
  else ['%', hexDigitUpper (c.toNat / 16), hexDigitUpper (c.toNat % 16)]

/-- Python `urllib.parse.quote(name, safe="")` over a character list. -/
def pyQuote (s : List Char) : List Char :=
  s.flatMap quoteChar

/-- The `.replace("-", "%2D")` step of `storage_safe_encode`. -/
def replaceDash (s : List Char) : List Char :=
  s.flatMap (fun c => if c = '-' then ['%', '2', 'D'] else [c])

/-- transient/store.py `storage_safe_encode`: URL-quote with nothing
safe, then additionally escape the dash. -/
def storage_safe_encode (s : List Char) : List Char :=
  replaceDash (pyQuote s)

/-- Hexadecimal digit recognizer of Python `urllib.parse.unquote`
(both cases accepted). -/
def isHexDig (c : Char) : Bool :=
  ('0' ≤ c && c ≤ '9') || ('a' ≤ c && c ≤ 'f') || ('A' ≤ c && c ≤ 'F')

/-- Value of a hexadecimal digit (only used under `isHexDig`). -/
def hexVal (c : Char) : Nat :=
  if '0' ≤ c && c ≤ '9' then c.toNat - 48
  else if 'a' ≤ c && c ≤ 'f' then c.toNat - 87
  else c.toNat - 55

/-- Python `urllib.parse.unquote`: each percent-escape with two valid
hex digits becomes the escaped character; an invalid escape keeps its
percent sign and scanning continues after it. -/
def pyUnquote : List Char → List Char
  | [] => []
  | [c] => [c]
  | [c, d] => c :: pyUnquote [d]
  | c :: a :: b :: rest2 =>
    if c = '%' then
      if isHexDig a && isHexDig b then
        Char.ofNat (hexVal a * 16 + hexVal b) :: pyUnquote rest2
      else c :: pyUnquote (a :: b :: rest2)
    else c :: pyUnquote (a :: b :: rest2)
termination_by s => s.length
decreasing_by all_goals simp only [List.length_cons] <;> omega

/-- transient/store.py `storage_safe_decode`. -/
def storage_safe_decode (s : List Char) : List Char :=
  pyUnquote s

/- ------------------------------------------------------------------ -/
/- VM state locking (transient/store.py `VmStore.lock_vmstate_by_name`
   and the error class `TransientVmStoreLockHeld`). The filesystem
   facts the function branches on (directory exists, config file
   exists) and the outcome of the `flock` acquisition are inputs. -/

/-- Outcome of `utils.lock_file` on the config path: the lock is
acquired, or an `OSError` escapes (non-blocking lock still refused when
the timeout runs out, or any other OS failure while locking). -/
inductive FlockOutcome
  | acquired
  | osError
deriving DecidableEq, Repr, Fintype

/-- The distinct errors `lock_vmstate_by_name` can raise. `noVm` and
`missingConfig` are plain `TransientError`s with their messages;
`lockHeld` is the distinguished subclass `TransientVmStoreLockHeld`. -/
inductive VmLockError
  | noVm
  | missingConfig
  | lockHeld
deriving DecidableEq, Repr, Fintype

/-- Successful result: the parsed `VmPersistentState` is yielded to the
caller with the lock held. -/
inductive VmLockYield
  | yieldedState
deriving DecidableEq, Repr, Fintype

/-- transient/store.py `VmStore.lock_vmstate_by_name`: raise `noVm`
when the VM directory is missing, `missingConfig` when its `config`
file is missing, lock the config file otherwise, converting an
`OSError` of the lock acquisition into `TransientVmStoreLockHeld`. -/
def lock_vmstate_by_name (dirExists configExists : Bool) (flockRes : FlockOutcome) :
    Except VmLockError VmLockYield :=
  if !dirExists then .error .noVm
  else if !configExists then .error .missingConfig
  else
    match flockRes with
    | .acquired => .ok .yieldedState
    | .osError => .error .lockHeld

/- ------------------------------------------------------------------ -/
/- Byte formatting (transient/utils.py `format_bytes`). The float
   arithmetic of the Python loop is modelled over the rationals; the
   divisions by 1024 it performs are exact on the binary floats of the
   relevant magnitudes. The numeric text of "{:.2f}" is not modelled:
   the result keeps the scaled quantity and the selected unit label,
   and `none` models the `KeyError` raised when the loop index is
   missing from the label table. -/

/-- The halving loop of `format_bytes`: divide by 1024 while the size
is at least 1024, counting iterations. -/
def formatBytesLoop (size : ℚ) (n : Nat) : ℚ × Nat :=
  if h : 1024 ≤ size then formatBytesLoop (size / 1024) (n + 1) else (size, n)
termination_by ⌊size⌋₊
decreasing_by
  have hfl : (1024 : ℕ) ≤ ⌊size⌋₊ := Nat.le_floor (by exact_mod_cast h)
  have hdiv : ⌊size / ((1024 : ℕ) : ℚ)⌋₊ = ⌊size⌋₊ / 1024 := Nat.floor_div_nat size 1024
  have hcast : (((1024 : ℕ) : ℚ)) = (1024 : ℚ) := by norm_num
  rw [hcast] at hdiv
  rw [hdiv]
  exact Nat.div_lt_self (lt_of_lt_of_le (by norm_num) hfl) (by norm_num)

/-- The `labels` dictionary of `format_bytes`: indices 0 through 4 only. -/
def byteLabels : Nat → Option String
  | 0 => some "B"
  | 1 => some "KiB"
  | 2 => some "MiB"
  | 3 => some "GiB"
  | 4 => some "TiB"
  | _ => none

/-- transient/utils.py `format_bytes`: run the halving loop, then look
the final index up in the label table; a missing index is Python's
`KeyError` (`none` here). -/
def format_bytes (size : ℚ) : Option (ℚ × String) :=
  match byteLabels (formatBytesLoop size 0).2 with
  | some label => some ((formatBytesLoop size 0).1, label)
  | none => none

/- ------------------------------------------------------------------ -/
/- Stream decompression (transient/utils.py `StreamDecompressor`).
   Byte strings are lists of naturals. The zlib/bz2/lzma library
   decompressors are abstract: an `inner` function maps a format, the
   chunks already fed to the inner decompressor (its internal state)
   and the current chunk to the produced output. The plain format's
   method is the source's `decompress_plain`, which returns its input
   unchanged. -/

/-- Compression family detected by `StreamDecompressor`. -/
inductive CompressionFmt
  | gzip
  | bz2
  | xz
  | plain
deriving DecidableEq, Repr, Fintype

/-- Gzip magic bytes (1f 8b). -/
def gzipMagic : List Nat := [0x1f, 0x8b]

/-- Bzip2 magic bytes (42 5a 68). -/
def bz2Magic : List Nat := [0x42, 0x5a, 0x68]

/-- Xz magic bytes (fd 37 7a 58 5a 00). -/
def xzMagic : List Nat := [0xfd, 0x37, 0x7a, 0x58, 0x5a, 0x00]

/-- The `COMPRESSION_MAGIC` scan of `StreamDecompressor.decompress`:
the table is iterated in insertion order (gzip, bz2, xz) and the first
magic that prefixes the chunk wins; no match selects the plain
pass-through method. -/
def detectFmt (chunk : List Nat) : CompressionFmt :=
  if gzipMagic.isPrefixOf chunk then .gzip
  else if bz2Magic.isPrefixOf chunk then .bz2
  else if xzMagic.isPrefixOf chunk then .xz
  else .plain

/-- State of a `StreamDecompressor`: the chosen method (none before the
first chunk) and the chunks already handed to the inner library
decompressor. -/
structure DecompressorState where
  method : Option CompressionFmt
  fedChunks : List (List Nat)
deriving DecidableEq, Repr

/-- Initial state: `decompression_method = None`. -/
def initDecompressor : DecompressorState := ⟨none, []⟩

/-- Output of one `decompress` call once the method is fixed: the plain
method returns the contents unchanged; the compressed families call the
abstract library decompressor. -/
def methodOutput (inner : CompressionFmt → List (List Nat) → List Nat → List Nat)
    (fmt : CompressionFmt) (fed : List (List Nat)) (chunk : List Nat) : List Nat :=
  match fmt with
  | .plain => chunk
  | f => inner f fed chunk

/-- One `StreamDecompressor.decompress(contents)` call: when no method
is chosen yet, detect it from this (first) chunk; then run the method. -/
def decompressStep (inner : CompressionFmt → List (List Nat) → List Nat → List Nat)
    (s : DecompressorState) (chunk : List Nat) : DecompressorState × List Nat :=
  match s.method with
  | none =>
    let f := detectFmt chunk
    (⟨some f, s.fedChunks ++ [chunk]⟩, methodOutput inner f s.fedChunks chunk)
  | some f => (⟨some f, s.fedChunks ++ [chunk]⟩, methodOutput inner f s.fedChunks chunk)

/-- Feeding a sequence of chunks to one decompressor, collecting the
output of every call. -/
def decompressRun (inner : CompressionFmt → List (List Nat) → List Nat → List Nat)
    (s : DecompressorState) : List (List Nat) → DecompressorState × List (List Nat)
  | [] => (s, [])
  | c :: cs =>
    let step := decompressStep inner s c
    let rest := decompressRun inner step.1 cs
    (rest.1, step.2 :: rest.2)

/- ------------------------------------------------------------------ -/
/- Backend image retrieval (transient/store.py
   `BackendImageStore.retrieve_image` together with
   `BaseImageProtocol.retrieve_image`). The code is embedded as the
   trace of filesystem actions it performs; the booleans say whether
   the final backend file exists at the first check and at the re-check
   under the lock (the re-check may differ because another process can
   finish a retrieval while this one waits on the lock). -/

/-- Filesystem actions of the retrieval path. -/
inductive RetrieveAction
  | checkFinal (present : Bool)
  | acquireLock
  | retrieveStart
  | retrieveFinish
  | renameWorkFinal
  | chmodReadonly
  | releaseLock
  | returnInfo
deriving DecidableEq, Repr, Fintype

/-- Trace of `retrieve_image`: return at once when the final file
exists; otherwise lock `backend/.working/<name>`, re-check, and either
return (another process finished) or retrieve into the locked work
file, atomically rename it onto the final path, and make the final
path read-only, releasing the lock on scope exit. -/
def retrieve_image (finalAtStart finalAtRecheck : Bool) : List RetrieveAction :=
  if finalAtStart then [.checkFinal true, .returnInfo]
  else
    [.checkFinal false, .acquireLock] ++
      (if finalAtRecheck then [.checkFinal true, .releaseLock, .returnInfo]
       else [.checkFinal false, .retrieveStart, .retrieveFinish, .renameWorkFinal,
             .chmodReadonly, .releaseLock, .returnInfo])

/-- Content state of one path: absent, partially written, or fully
written. -/
inductive FileState
  | absent
  | partialData
  | complete
deriving DecidableEq, Repr, Fintype

/-- The two paths the retrieval touches, plus the `.working` lock. -/
structure BackendFs where
  finalFile : FileState
  workFile : FileState
  lockHeld : Bool
deriving DecidableEq, Repr

/-- Effect of one retrieval action on the filesystem: the protocol
retrieval writes the work file (partial until it finishes), the rename
atomically moves the work file onto the final path, locking toggles the
lock; checks, chmod and return do not change contents. -/
def applyRetrieveAction (s : BackendFs) : RetrieveAction → BackendFs
  | .acquireLock => { s with lockHeld := true }
  | .releaseLock => { s with lockHeld := false }
  | .retrieveStart => { s with workFile := .partialData }
  | .retrieveFinish => { s with workFile := .complete }
  | .renameWorkFinal => { s with finalFile := s.workFile, workFile := .absent }
  | _ => s

/-- Check that along a list of actions the final path never holds a
partially written file. -/
def finalNeverPartialFrom (s : BackendFs) : List RetrieveAction → Bool
  | [] => s.finalFile ≠ .partialData
  | a :: rest =>
    (s.finalFile ≠ .partialData) && finalNeverPartialFrom (applyRetrieveAction s a) rest

/-- Check that every action that writes, finishes or renames the work
file happens while the working-directory lock is held. -/
def retrievalUnderLock (s : BackendFs) : List RetrieveAction → Bool
  | [] => true
  | a :: rest =>
    (if a = .retrieveStart ∨ a = .retrieveFinish ∨ a = .renameWorkFinal then s.lockHeld
     else true) && retrievalUnderLock (applyRetrieveAction s a) rest

/- ------------------------------------------------------------------ -/
/- VM state creation (transient/store.py `VmStore.create_vmstate` and
   `VmStore.__path_is_potential_vmstate_dir`). Path base names are
   lists of characters. The existing directory entries are a predicate;
   the generated uuid and the random suffix of the temporary directory
   are inputs. The embedding records the actions performed: creating
   overlay images and the config file in a directory, and the final
   atomic rename. -/

/-- Actions of `create_vmstate`. -/
inductive CreateVmAction
  | createImage (dir : List Char) (diskNum : Nat) (spec : List Char)
  | writeConfig (dir : List Char)
  | renameDir (src dst : List Char)
deriving DecidableEq, Repr

/-- The error `create_vmstate` raises when the VM directory exists. -/
inductive CreateVmError
  | alreadyExists
deriving DecidableEq, Repr

/-- Name of the temporary state directory:
`tempfile.TemporaryDirectory(prefix=".", dir=self.path)`. -/
def tempStateDirName (suffix : List Char) : List Char := '.' :: suffix

/-- `VmStore.__vm_dir`: the storage-safe encoding of the VM name. -/
def vmDirName (name : List Char) : List Char := storage_safe_encode name

/-- transient/store.py `VmStore.create_vmstate`: derive the name
(config name or a generated uuid), refuse when the VM directory exists,
otherwise create the primary overlay as disk 0 and each extra image as
disk i+1 inside the dot-prefixed temporary directory, write the config
there, and atomically rename the temporary directory onto the VM
directory. Returns the derived name and the performed actions. -/
def create_vmstate (dirExists : List Char → Bool) (cfgName : Option (List Char))
    (uuid4 : List Char) (primaryImage : List Char) (extraImage : List (List Char))
    (tmpSuffix : List Char) :
    Except CreateVmError (List Char × List CreateVmAction) :=
  let name := match cfgName with | none => uuid4 | some n => n
  if dirExists (vmDirName name) then .error .alreadyExists
  else
    let tmp := tempStateDirName tmpSuffix
    .ok (name,
      (CreateVmAction.createImage tmp 0 primaryImage ::
        extraImage.enum.map (fun p => CreateVmAction.createImage tmp (p.1 + 1) p.2)) ++
      [CreateVmAction.writeConfig tmp, CreateVmAction.renameDir tmp (vmDirName name)])

/-- transient/store.py `VmStore.__path_is_potential_vmstate_dir`: a
dot-prefixed base name is never a vmstate directory; otherwise the
entry must be a directory. -/
def path_is_potential_vmstate_dir (baseName : List Char) (isDir : Bool) : Bool :=
  match baseName with
  | '.' :: _ => false
  | _ => if !isDir then false else true

/-- Directory an action works in (the rename's source). -/
def createVmActionDir : CreateVmAction → List Char
  | .createImage d _ _ => d
  | .writeConfig d => d
  | .renameDir src _ => src

/- ------------------------------------------------------------------ -/
/- SSH connection (transient/ssh.py `SshClient.__timed_connection`).
   Probe outcomes are abstract: `rc i` is the return code of the i-th
   probe and `dur i` its duration in seconds. Wall-clock time is
   tracked as the time remaining before the deadline (the source
   compares `time.time() - start < timeout`); each 255 retry consumes
   the probe's duration plus the fixed sleep. -/

/-- transient/ssh.py `SSH_CONNECTION_TIME_BETWEEN_TRIES`. -/
def SSH_CONNECTION_TIME_BETWEEN_TRIES : Nat := 2

/-- Where a spawned process's standard streams are bound. -/
inductive SshFile
  | devnull
  | pipeCapture
  | inherited
  | handle (fd : Nat)
deriving DecidableEq, Repr

/-- A spawned ssh process: its command line and stdio plumbing. -/
structure SpawnRecord where
  cmd : List String
  stdin : SshFile
  stdout : SshFile
  stderr : SshFile
deriving DecidableEq, Repr

/-- Result of `__timed_connection`: the real session's process, a
RuntimeError for a probe exit code other than 0 and 255, or the
RuntimeError raised when the deadline passes. -/
inductive SshOutcome
  | connected (session : SpawnRecord)
  | fatalExit (code : Int)
  | timedOut
deriving DecidableEq, Repr

/-- `SshClient.__prepare_ssh_command`: the configured command line,
with the user command appended when present. -/
def prepareSshCommand (base : List String) (userCmd : Option String) : List String :=
  base ++ (match userCmd with | some c => [c] | none => [])

/-- The probe loop of `__timed_connection`: while the deadline has not
passed, run a probe; 255 sleeps the fixed interval and retries, 0
spawns the real session, anything else is fatal; an expired deadline is
the timeout error. Returns every probe spawned (with its exit code) and
the outcome. -/
def timedConnectionLoop (rc : Nat → Int) (dur : Nat → Nat) (probe real : SpawnRecord) :
    Nat → Nat → List (SpawnRecord × Int) × SshOutcome
  | i, remaining =>
    if h : 0 < remaining then
      if rc i = 255 then
        let rest := timedConnectionLoop rc dur probe real (i + 1)
          (remaining - (dur i + SSH_CONNECTION_TIME_BETWEEN_TRIES))
        ((probe, rc i) :: rest.1, rest.2)
      else if rc i = 0 then ([(probe, rc i)], .connected real)
      else ([(probe, rc i)], .fatalExit (rc i))
    else ([], .timedOut)
termination_by _ remaining => remaining
decreasing_by exact Nat.sub_lt h (by simp only [SSH_CONNECTION_TIME_BETWEEN_TRIES]; omega)

/-- transient/ssh.py `SshClient.__timed_connection`: probes run the
command without the user command, with stdin bound to null and output
captured; the real session runs the full command with the
caller-supplied stdio plumbing. -/
def timed_connection (base : List String) (userCmd : Option String)
    (sshStdin sshStdout sshStderr : SshFile) (rc : Nat → Int) (dur : Nat → Nat)
    (timeout : Nat) : List (SpawnRecord × Int) × SshOutcome :=
  timedConnectionLoop rc dur
    ⟨prepareSshCommand base none, .devnull, .pipeCapture, .pipeCapture⟩
    ⟨prepareSshCommand base userCmd, sshStdin, sshStdout, sshStderr⟩
    0 timeout

/- ------------------------------------------------------------------ -/
/- Image spec parsing (transient/store.py `ImageSpec.__init__`, the
   regular expression `_IMAGE_SPEC` and the protocol table
   `_IMAGE_PROTOCOLS`). The Python regex
   `^([^,]+?)(?:,(.+?)=(.+))?$` is embedded by its backtracking
   semantics: group 1 grows lazily over non-comma characters, the
   optional group is tried before the empty alternative, `.` matches
   everything but a newline, and `$` matches at the end of the string
   or just before a trailing newline. -/

/-- Python `$`: end of the string, or just before one final newline. -/
def matchEnd : List Char → Bool
  | [] => true
  | c :: rest => rest.isEmpty && (c = '\n')

/-- Match of `(.+)$` (greedy): the longest newline-free prefix, valid
when what follows it is an end-of-string position. -/
def dotPlusEnd (t : List Char) : Option (List Char) :=
  let src := t.takeWhile (fun c => c != '\n')
  if src.isEmpty then none
  else if matchEnd (t.dropWhile (fun c => c != '\n')) then some src else none

/-- Match of `(.+?)=(.+)$` (lazy first group): the first group grows
one non-newline character at a time; at each size a literal `=` and a
successful `(.+)$` match are tried before growing further. -/
def psGo : List Char → List Char → Option (List Char × List Char)
  | _, [] => none
  | acc, c :: rest =>
    if c = '\n' then none
    else
      match rest with
      | d :: rest2 =>
        if d = '=' then
          match dotPlusEnd rest2 with
          | some src => some (acc ++ [c], src)
          | none => psGo (acc ++ [c]) rest
        else psGo (acc ++ [c]) rest
      | [] => psGo (acc ++ [c]) rest

/-- Match of `^([^,]+?)(?:,(.+?)=(.+))?$`: group 1 grows lazily over
non-comma characters; after each growth the optional group (which
needs a comma) is tried, then the empty alternative followed by `$`. -/
def nameLoop : List Char → List Char → Option (List Char × Option (List Char × List Char))
  | _, [] => none
  | acc, c :: rest =>
    if c = ',' then none
    else
      match rest with
      | d :: rest2 =>
        if d = ',' then
          match psGo [] rest2 with
          | some ps => some (acc ++ [c], some ps)
          | none => nameLoop (acc ++ [c]) rest
        else
          if matchEnd rest then some (acc ++ [c], none)
          else nameLoop (acc ++ [c]) rest
      | [] =>
        if matchEnd rest then some (acc ++ [c], none)
        else nameLoop (acc ++ [c]) rest

/-- The protocols of `_IMAGE_PROTOCOLS`, in table order. -/
inductive ImageProto
  | vagrant
  | http
  | file
deriving DecidableEq, Repr, Fintype

/-- Case-insensitive prefix match: `re.match` of a literal pattern
against a candidate, with `re.IGNORECASE` (the patterns are ASCII
lowercase). -/
def isCIPrefixOf : List Char → List Char → Bool
  | [], _ => true
  | _ :: _, [] => false
  | p :: ps, c :: cs => (c.toLower = p) && isCIPrefixOf ps cs

/-- `BaseImageProtocol.matches` over the `_IMAGE_PROTOCOLS` list: the
first protocol whose regex matches a prefix of the candidate. -/
def protoLookup (proto : List Char) : Option ImageProto :=
  if isCIPrefixOf (String.toList "vagrant") proto then some .vagrant
  else if isCIPrefixOf (String.toList "http") proto then some .http
  else if isCIPrefixOf (String.toList "file") proto then some .file
  else none

/-- The errors of `ImageSpec.__init__`: the regex did not match
("Invalid image spec"), or no protocol matched ("Unknown image source
protocol"). -/
inductive ImageSpecError
  | invalidSpec
  | unknownProto
deriving DecidableEq, Repr, Fintype

/-- A parsed `ImageSpec`: name, protocol and source. -/
structure ParsedImageSpec where
  name : List Char
  source_proto : ImageProto
  source : List Char
deriving DecidableEq, Repr

/-- transient/store.py `ImageSpec.__init__`: match `_IMAGE_SPEC`
against the spec string; with no protocol group, default to vagrant
with the name as source; otherwise look the protocol up, rejecting
unknown ones. -/
def imageSpecInit (s : List Char) : Except ImageSpecError ParsedImageSpec :=
  match nameLoop [] s with
  | none => .error .invalidSpec
  | some (nm, none) => .ok ⟨nm, .vagrant, nm⟩
  | some (nm, some (proto, src)) =>
    match protoLookup proto with
    | some pr => .ok ⟨nm, pr, src⟩
    | none => .error .unknownProto

/- ------------------------------------------------------------------ -/
/- Imagefile validation (transient/build.py `ImageBuilder.__validate`).
   Instructions carry only what validation reads: the FROM source and a
   partition's MOUNT path. -/

/-- An Imagefile instruction, as far as validation is concerned. -/
inductive Instr
  | fromI (source : String)
  | disk
  | part (mount : Option String)
  | add
  | copy
  | runI
  | inspect
deriving DecidableEq, Repr

/-- Python `str.lower()` for the ASCII strings compared here. -/
def pyLower (s : String) : String := String.mk (s.data.map Char.toLower)

/-- Instruction class tests used by `__instruction_type`. -/
def isFrom : Instr → Bool
  | .fromI _ => true
  | _ => false

/-- Whether the instruction is a DISK instruction. -/
def isDisk : Instr → Bool
  | .disk => true
  | _ => false

/-- Whether the instruction is a PARTITION instruction. -/
def isPart : Instr → Bool
  | .part _ => true
  | _ => false

/-- Sources of the FROM instructions, in program order. -/
def fromSources (p : List Instr) : List String :=
  p.filterMap (fun i => match i with | .fromI s => some s | _ => none)

/-- Number of DISK instructions. -/
def diskCount (p : List Instr) : Nat :=
  (p.filter isDisk).length

/-- MOUNT paths of the PARTITION instructions, in program order. -/
def partMounts (p : List Instr) : List (Option String) :=
  p.filterMap (fun i => match i with | .part m => some m | _ => none)

/-- The distinct `RuntimeError`s of `__validate`, by message. -/
inductive BuildError
  | exactlyOneFrom
  | onlyOneDisk
  | scratchNeedsDisk
  | scratchNeedsPartition
  | scratchNeedsRootMount
  | diskPartitionScratchOnly
  | fromMustBeFirst
  | diskAfterFrom
  | partAfterDisk
deriving DecidableEq, Repr, Fintype

/-- The `ImagefileSection` enum of the ordering state machine. -/
inductive ImagefileSection
  | fromSec
  | diskSec
  | partSec
  | execSec
deriving DecidableEq, Repr, Fintype

/-- The ordering state machine at the end of `__validate`: FROM only
with no section yet, DISK only in the FROM section, PARTITION only in
the DISK or PARTITION section; any other instruction moves to the
execute section. -/
def sectionCheck : Option ImagefileSection → List Instr → Except BuildError Unit
  | _, [] => .ok ()
  | sec, .fromI _ :: rest =>
    match sec with
    | none => sectionCheck (some .fromSec) rest
    | some _ => .error .fromMustBeFirst
  | sec, .disk :: rest =>
    if sec = some .fromSec then sectionCheck (some .diskSec) rest
    else .error .diskAfterFrom
  | sec, .part _ :: rest =>
    if sec = some .diskSec ∨ sec = some .partSec then sectionCheck (some .partSec) rest
    else .error .partAfterDisk
  | _, .add :: rest => sectionCheck (some .execSec) rest
  | _, .copy :: rest => sectionCheck (some .execSec) rest
  | _, .runI :: rest => sectionCheck (some .execSec) rest
  | _, .inspect :: rest => sectionCheck (some .execSec) rest

/-- transient/build.py `ImageBuilder.__validate`: exactly one FROM;
at most one DISK; from scratch, at least one DISK, at least one
PARTITION and a partition mounted at `/` are required, while otherwise
no DISK or PARTITION may appear; finally the ordering state machine
runs over the whole program. -/
def validate (p : List Instr) : Except BuildError Unit :=
  match fromSources p with
  | [src] =>
    if diskCount p > 1 then .error .onlyOneDisk
    else if pyLower src = "scratch" then
      if diskCount p = 0 then .error .scratchNeedsDisk
      else if (partMounts p).length = 0 then .error .scratchNeedsPartition
      else if !((partMounts p).any (fun m => m == some "/")) then
        .error .scratchNeedsRootMount
      else sectionCheck none p
    else if diskCount p > 0 ∨ (partMounts p).length > 0 then
      .error .diskPartitionScratchOnly
    else sectionCheck none p
  | _ => .error .exactlyOneFrom

/-- Spec-side adjacency requirement, stated on consecutive
instructions: a DISK stands immediately after FROM and a PARTITION
immediately after a DISK or another PARTITION. -/
def adjacencyOk (prev next : Instr) : Prop :=
  (isDisk next = true → isFrom prev = true) ∧
  (isPart next = true → isDisk prev = true ∨ isPart prev = true)

/-- The spec's well-formedness invariants for an Imagefile program:
exactly one FROM; no instruction before FROM; DISK/PARTITION adjacency;
and, from scratch, at least one DISK, one PARTITION and a partition
mounting `/`, while otherwise no DISK or PARTITION at all. -/
def specWellFormed (p : List Instr) : Prop :=
  (fromSources p).length = 1 ∧
  (∃ src rest, p = .fromI src :: rest) ∧
  List.Chain' adjacencyOk p ∧
  (∀ src rest, p = .fromI src :: rest →
    (if pyLower src = "scratch"
     then 1 ≤ diskCount p ∧ 1 ≤ (partMounts p).length ∧ (some "/") ∈ partMounts p
     else diskCount p = 0 ∧ (partMounts p).length = 0))

/-- The section the state machine is in right after an instruction. -/
def sectionOf : Instr → ImagefileSection
  | .fromI _ => .fromSec
  | .disk => .diskSec
  | .part _ => .partSec
  | _ => .execSec

/- ------------------------------------------------------------------ -/
/- Run-configuration composition. The function composing a create-time
   configuration with a start-time configuration
   (`configuration.run_config_from_create_and_start` of the upstream
   repository) is not part of the files under src/: only its unit tests
   (test/unit/test_config.py) and the `CreateConfig` annotations in
   src/transient/store.py refer to it. It is modelled from the spec. -/

/-- One field's value: a list-valued option or a scalar with the unset
sentinel `none`. -/
inductive ConfigValue
  | listVal (items : List String)
  | scalarVal (value : Option String)
deriving DecidableEq, Repr

/-- Modelled from the spec: composition of one field present on both
sides - list-valued options concatenate create-side first; a non-null
start-side scalar overrides, a null one keeps the create-side value.
(Kinds agree for a field shared by both schemas; on a mismatch the
start side is kept, a case the claims never exercise.) -/
def composeConfigValue : ConfigValue → ConfigValue → ConfigValue
  | .listVal cs, .listVal ss => .listVal (cs ++ ss)
  | .scalarVal cv, .scalarVal sv =>
    .scalarVal (match sv with | some v => some v | none => cv)
  | _, sv => sv

/-- Modelled from the spec: `run_config_from_create_and_start` is
absent from src/transient/configuration.py (only the unit tests in
test/unit/test_config.py call it). Per the spec, the run configuration
combines every field of the create configuration with the start
configuration's value for it, and keeps the start-side fields the
create side lacks. Configurations are association lists of field name
and value. -/
def run_config_from_create_and_start (c s : List (String × ConfigValue)) :
    List (String × ConfigValue) :=
  (c.map (fun kv =>
    (kv.1, match List.lookup kv.1 s with
           | some sv => composeConfigValue kv.2 sv
           | none => kv.2))) ++
  s.filter (fun kv => (List.lookup kv.1 c).isNone)

/-- Decidable equality on `Except`, so that concrete runs of the
embedded fallible functions can be checked by `decide`. -/
instance exceptDecidableEq {ε α : Type} [DecidableEq ε] [DecidableEq α] :
    DecidableEq (Except ε α) := fun x y =>
  match x, y with
  | .ok a, .ok b => decidable_of_iff (a = b) (by simp)
  | .error a, .error b => decidable_of_iff (a = b) (by simp)
  | .ok _, .error _ => isFalse (by simp)
  | .error _, .ok _ => isFalse (by simp)

/- ================================================================== -/
/- Theorems. -/

/-- Claim C3 (counterexample): the claim states that whenever the
config file does not exist, `lock_vmstate_by_name` raises the
distinguished locked-elsewhere kind; on the concrete input where the VM
directory exists but its config file does not (and locking would even
succeed), the code raises the plain missing-configuration
`TransientError`, not `TransientVmStoreLockHeld`. -/
theorem lock_vmstate_missing_config_not_lock_held :
    lock_vmstate_by_name true false FlockOutcome.acquired =
        Except.error VmLockError.missingConfig ∧
      lock_vmstate_by_name true false FlockOutcome.acquired ≠
        Except.error VmLockError.lockHeld := by
  decide

/-- Claim C3 (amended): with the VM directory and its config file
present, `lock_vmstate_by_name` acquires the file lock on the config
path and yields the parsed persistent state, and a lock acquisition
that times out (an `OSError`) raises the distinguished
`TransientVmStoreLockHeld`; but a missing config file raises the plain
"missing configuration" `TransientError` and a missing VM directory the
plain "No VM with name" `TransientError`, neither of which is the
locked-elsewhere kind. -/
theorem lock_vmstate_by_name_spec :
    (lock_vmstate_by_name true true FlockOutcome.acquired =
      Except.ok VmLockYield.yieldedState) ∧
    (lock_vmstate_by_name true true FlockOutcome.osError =
      Except.error VmLockError.lockHeld) ∧
    (∀ f : FlockOutcome, lock_vmstate_by_name true false f =
      Except.error VmLockError.missingConfig) ∧
    (∀ (c : Bool) (f : FlockOutcome), lock_vmstate_by_name false c f =
      Except.error VmLockError.noVm) := by
  decide

/-- Claim C1: `retrieve_image` returns the descriptor with no lock and
no protocol retrieval when the final backend file already exists; when
it does not, the working-file lock is acquired before the re-check of
the final path, a re-check that finds the file present returns with no
protocol retrieval, and only otherwise do the protocol retrieval, the
atomic rename onto the final path and the read-only chmod run, in that
order, all under the lock; under every combination, starting from a
final path that is not partially written, the final path never holds a
partially written file at any point of the trace. -/
theorem retrieve_image_spec :
    ∀ finalAtRecheck : Bool,
      (retrieve_image true finalAtRecheck =
        [RetrieveAction.checkFinal true, RetrieveAction.returnInfo] ∧
       RetrieveAction.retrieveStart ∉ retrieve_image true finalAtRecheck ∧
       RetrieveAction.acquireLock ∉ retrieve_image true finalAtRecheck) ∧
      ([RetrieveAction.checkFinal false, RetrieveAction.acquireLock,
          RetrieveAction.checkFinal finalAtRecheck] <+:
        retrieve_image false finalAtRecheck) ∧
      (RetrieveAction.retrieveStart ∉ retrieve_image false true) ∧
      (List.Sublist
        [RetrieveAction.acquireLock, RetrieveAction.retrieveStart,
          RetrieveAction.retrieveFinish, RetrieveAction.renameWorkFinal,
          RetrieveAction.chmodReadonly, RetrieveAction.releaseLock]
        (retrieve_image false false)) ∧
      (∀ f0 w0 : FileState,
        retrievalUnderLock ⟨f0, w0, false⟩ (retrieve_image false false) = true) ∧
      (∀ (finalAtStart : Bool) (f0 w0 : FileState), f0 ≠ FileState.partialData →
        finalNeverPartialFrom ⟨f0, w0, false⟩
          (retrieve_image finalAtStart finalAtRecheck) = true) := by
  decide

/-- Helper: the last element of a list ending in an explicit pair. -/
theorem getLastQ_append_pair {α : Type} (xs : List α) (a b : α) :
    (xs ++ [a, b]).getLast? = some b := by
  simp [List.getLast?_append]

/-- Helper: dropping the last element of a list ending in an explicit
pair. -/
theorem dropLast_append_pair {α : Type} (xs : List α) (a b : α) :
    (xs ++ [a, b]).dropLast = xs ++ [a] := by
  have h : xs ++ [a, b] = (xs ++ [a]) ++ [b] := by simp
  rw [h, List.dropLast_concat]

/-- Claim C2: `create_vmstate` raises when a VM directory with the
derived name (the configured name, or else the generated uuid) already
exists; otherwise it creates the primary overlay as disk 0 and then the
extra overlays as disks 1.. and writes the config file, all inside the
dot-prefixed temporary sibling directory, and its one and only action
on the VM directory itself is the final atomic rename of that temporary
directory; and the listing filter rejects every dot-prefixed entry, the
temporary directory among them, so a VM state directory is observed
only fully constructed or absent. -/
theorem create_vmstate_spec :
    ∀ (dirExists : List Char → Bool) (cfgName : Option (List Char))
      (uuid4 primary : List Char) (extras : List (List Char)) (sfx : List Char),
      (dirExists (vmDirName (cfgName.getD uuid4)) = true →
        create_vmstate dirExists cfgName uuid4 primary extras sfx =
          Except.error CreateVmError.alreadyExists) ∧
      (dirExists (vmDirName (cfgName.getD uuid4)) = false →
        ∃ tr, create_vmstate dirExists cfgName uuid4 primary extras sfx =
            Except.ok (cfgName.getD uuid4, tr) ∧
          tr.getLast? = some (CreateVmAction.renameDir (tempStateDirName sfx)
            (vmDirName (cfgName.getD uuid4))) ∧
          (∀ a ∈ tr.dropLast, createVmActionDir a = tempStateDirName sfx) ∧
          CreateVmAction.writeConfig (tempStateDirName sfx) ∈ tr.dropLast ∧
          (CreateVmAction.createImage (tempStateDirName sfx) 0 primary ::
            extras.enum.map (fun p =>
              CreateVmAction.createImage (tempStateDirName sfx) (p.1 + 1) p.2)) <+: tr) ∧
      (∀ (tail : List Char) (isDir : Bool),
        path_is_potential_vmstate_dir ('.' :: tail) isDir = false) ∧
      (∀ isDir : Bool, path_is_potential_vmstate_dir (tempStateDirName sfx) isDir = false) := by
  intro dirExists cfgName uuid4 primary extras sfx
  have hname : (match cfgName with | none => uuid4 | some n => n) = cfgName.getD uuid4 := by
    cases cfgName <;> rfl
  refine ⟨?_, ?_, fun tail isDir => rfl, fun isDir => rfl⟩
  · intro h
    simp only [create_vmstate, hname, h, if_true]
  · intro h
    refine ⟨(CreateVmAction.createImage (tempStateDirName sfx) 0 primary ::
        extras.enum.map (fun p =>
          CreateVmAction.createImage (tempStateDirName sfx) (p.1 + 1) p.2)) ++
      [CreateVmAction.writeConfig (tempStateDirName sfx),
       CreateVmAction.renameDir (tempStateDirName sfx) (vmDirName (cfgName.getD uuid4))],
      ?_, ?_, ?_, ?_, ?_⟩
    · simp only [create_vmstate, hname, h, if_false, Bool.false_eq_true]
    · exact getLastQ_append_pair _ _ _
    · rw [dropLast_append_pair]
      intro a ha
      rcases List.mem_append.mp ha with h1 | h1
      · rcases List.mem_cons.mp h1 with h2 | h2
        · rw [h2]; rfl
        · rcases List.mem_map.mp h2 with ⟨p, _, h3⟩
          rw [← h3]; rfl
      · rcases List.mem_cons.mp h1 with h2 | h2
        · rw [h2]; rfl
        · cases h2
    · rw [dropLast_append_pair]
      exact List.mem_append.mpr (Or.inr (List.mem_cons_self _ _))
    · exact List.prefix_append _ _

/-- Helper: the halving loop is the identity below 1024. -/
theorem formatBytesLoop_of_lt (size : ℚ) (n : Nat) (h : ¬ 1024 ≤ size) :
    formatBytesLoop size n = (size, n) := by
  unfold formatBytesLoop
  simp [h]

/-- Helper: the halving loop steps once at 1024 and above. -/
theorem formatBytesLoop_of_ge (size : ℚ) (n : Nat) (h : 1024 ≤ size) :
    formatBytesLoop size n = formatBytesLoop (size / 1024) (n + 1) := by
  conv_lhs => unfold formatBytesLoop
  simp [h]

/-- Helper: the loop index never decreases. -/
theorem formatBytesLoop_idx_mono :
    ∀ (size : ℚ) (n : Nat), n ≤ (formatBytesLoop size n).2 := by
  intro size n
  generalize hk : ⌊size⌋₊ = k
  induction k using Nat.strong_induction_on generalizing size n with
  | _ k ih =>
    by_cases h : 1024 ≤ size
    · have hfl : (1024 : ℕ) ≤ ⌊size⌋₊ := Nat.le_floor (by exact_mod_cast h)
      have hdiv : ⌊size / ((1024 : ℕ) : ℚ)⌋₊ = ⌊size⌋₊ / 1024 := Nat.floor_div_nat size 1024
      have hlt : ⌊size / 1024⌋₊ < k := by
        have : ⌊size / ((1024 : ℕ) : ℚ)⌋₊ < ⌊size⌋₊ := by
          rw [hdiv]
          exact Nat.div_lt_self (lt_of_lt_of_le (by norm_num) hfl) (by norm_num)
        rw [hk] at this
        simpa using this
      rw [formatBytesLoop_of_ge _ _ h]
      have := ih _ hlt (size / 1024) (n + 1) rfl
      omega
    · rw [formatBytesLoop_of_lt _ _ h]

/-- Helper: a size below `1024 ^ (m + 1)` stops the loop within `m`
more steps. -/
theorem formatBytesLoop_idx_le (m : Nat) :
    ∀ (size : ℚ) (n : Nat), size < 1024 ^ (m + 1) →
      (formatBytesLoop size n).2 ≤ n + m := by
  induction m with
  | zero =>
    intro size n h
    rw [formatBytesLoop_of_lt _ _ (by rw [pow_one] at h; exact not_le.mpr h)]
    omega
  | succ m ih =>
    intro size n h
    by_cases h2 : 1024 ≤ size
    · rw [formatBytesLoop_of_ge _ _ h2]
      have hdiv : size / 1024 < 1024 ^ (m + 1) := by
        rw [div_lt_iff₀ (by norm_num : (0 : ℚ) < 1024)]
        calc size < 1024 ^ (m + 1 + 1) := h
          _ = 1024 ^ (m + 1) * 1024 := by ring
      have := ih (size / 1024) (n + 1) hdiv
      omega
    · rw [formatBytesLoop_of_lt _ _ h2]
      omega

/-- Helper: a size at least `1024 ^ m` keeps the loop running for at
least `m` steps. -/
theorem formatBytesLoop_idx_ge (m : Nat) :
    ∀ (size : ℚ) (n : Nat), (1024 : ℚ) ^ m ≤ size →
      n + m ≤ (formatBytesLoop size n).2 := by
  induction m with
  | zero =>
    intro size n _
    simpa using formatBytesLoop_idx_mono size n
  | succ m ih =>
    intro size n h
    have h1024 : (1024 : ℚ) ≤ size := by
      calc (1024 : ℚ) = 1024 ^ 1 := (pow_one _).symm
        _ ≤ 1024 ^ (m + 1) := by
          apply pow_le_pow_right₀ (by norm_num)
          omega
        _ ≤ size := h
    rw [formatBytesLoop_of_ge _ _ h1024]
    have hdiv : (1024 : ℚ) ^ m ≤ size / 1024 := by
      rw [le_div_iff₀ (by norm_num : (0 : ℚ) < 1024)]
      calc (1024 : ℚ) ^ m * 1024 = 1024 ^ (m + 1) := by ring
        _ ≤ size := h
    have := ih (size / 1024) (n + 1) hdiv
    omega

/-- Helper: indices 5 and above are missing from the label table. -/
theorem byteLabels_none (j : Nat) : byteLabels (j + 5) = none := rfl

/-- Claim C10: `format_bytes` is partial. Every non-negative size below
2^50 yields a result labelled B, KiB, MiB, GiB or TiB; every size of at
least 2^50 drives the halving loop to index 5 and beyond, which is
absent from the label table, so the lookup fails (Python's `KeyError`);
concretely, 1024 formats as KiB while 2^50 fails. -/
theorem format_bytes_partial :
    (∀ size : ℚ, 0 ≤ size → size < 2 ^ 50 →
      ∃ q lab, format_bytes size = some (q, lab) ∧
        (lab = "B" ∨ lab = "KiB" ∨ lab = "MiB" ∨ lab = "GiB" ∨ lab = "TiB")) ∧
    (∀ size : ℚ, 2 ^ 50 ≤ size → format_bytes size = none) ∧
    format_bytes 1024 = some (1, "KiB") ∧
    format_bytes (2 ^ 50) = none := by
  have hpow : ((1024 : ℚ) ^ 5) = 2 ^ 50 := by norm_num
  have hlab : ∀ k : Nat, k ≤ 4 → ∃ lab, byteLabels k = some lab ∧
      (lab = "B" ∨ lab = "KiB" ∨ lab = "MiB" ∨ lab = "GiB" ∨ lab = "TiB") := by
    decide
  have hbig : ∀ size : ℚ, 2 ^ 50 ≤ size → format_bytes size = none := by
    intro size h
    have hge : 0 + 5 ≤ (formatBytesLoop size 0).2 :=
      formatBytesLoop_idx_ge 5 size 0 (by rw [hpow]; exact h)
    obtain ⟨j, hj⟩ : ∃ j, (formatBytesLoop size 0).2 = j + 5 :=
      ⟨(formatBytesLoop size 0).2 - 5, by omega⟩
    rw [format_bytes, hj, byteLabels_none]
  have hsmall : ∀ size : ℚ, 0 ≤ size → size < 2 ^ 50 →
      ∃ q lab, format_bytes size = some (q, lab) ∧
        (lab = "B" ∨ lab = "KiB" ∨ lab = "MiB" ∨ lab = "GiB" ∨ lab = "TiB") := by
    intro size _ h
    have hle : (formatBytesLoop size 0).2 ≤ 0 + 4 :=
      formatBytesLoop_idx_le 4 size 0 (by rw [show (4 : Nat) + 1 = 5 from rfl, hpow]; exact h)
    obtain ⟨lab, hsome, hcases⟩ := hlab (formatBytesLoop size 0).2 (by omega)
    exact ⟨(formatBytesLoop size 0).1, lab, by rw [format_bytes, hsome], hcases⟩
  have h1024 : formatBytesLoop (1024 : ℚ) 0 = (1, 1) := by
    rw [formatBytesLoop_of_ge _ _ (by norm_num),
      formatBytesLoop_of_lt _ _ (by norm_num)]
    norm_num
  refine ⟨hsmall, hbig, ?_, hbig _ (le_refl _)⟩
  rw [format_bytes, h1024]
  rfl

/-- Helper: the uppercase hex digits emitted by the encoder are
accepted by the decoder, evaluate back to their value, and are not the
dash. -/
theorem hexDigitUpper_spec :
    ∀ m : Nat, m < 16 → isHexDig (hexDigitUpper m) = true ∧
      hexVal (hexDigitUpper m) = m ∧ hexDigitUpper m ≠ '-' := by
  decide

/-- Helper: a character `urllib.parse.quote` leaves unquoted is never
the percent sign. -/
theorem isAlwaysSafe_ne_percent (c : Char) (h : isAlwaysSafe c = true) : c ≠ '%' := by
  intro he
  rw [he] at h
  exact absurd h (by decide)

/-- Helper: the decoder copies a non-percent head character. -/
theorem pyUnquote_cons_of_ne (c : Char) (h : c ≠ '%') :
    ∀ rest : List Char, pyUnquote (c :: rest) = c :: pyUnquote rest := by
  intro rest
  match rest with
  | [] => simp [pyUnquote]
  | [d] => simp [pyUnquote]
  | a :: b :: t => simp [pyUnquote, h]

/-- Helper: the decoder inverts the encoding of one ASCII character,
whatever follows. -/
theorem pyUnquote_encChar (c : Char) (hc : c.toNat < 128) (rest : List Char) :
    pyUnquote (replaceDash (quoteChar c) ++ rest) = c :: pyUnquote rest := by
  by_cases hsafe : isAlwaysSafe c = true
  · by_cases hdash : c = '-'
    · subst hdash
      have h1 : replaceDash (quoteChar '-') = ['%', '2', 'D'] := by decide
      rw [h1]
      show pyUnquote ('%' :: '2' :: 'D' :: rest) = '-' :: pyUnquote rest
      have hx : (isHexDig '2' && isHexDig 'D') = true := by decide
      have hv : Char.ofNat (hexVal '2' * 16 + hexVal 'D') = '-' := by decide
      simp [pyUnquote, hx, hv]
    · have h1 : replaceDash (quoteChar c) = [c] := by
        simp [quoteChar, hsafe, replaceDash, hdash]
      rw [h1]
      exact pyUnquote_cons_of_ne c (isAlwaysSafe_ne_percent c hsafe) rest
  · have hdiv : c.toNat / 16 < 16 := by omega
    have hmod : c.toNat % 16 < 16 := by omega
    obtain ⟨hh1, hv1, hd1⟩ := hexDigitUpper_spec _ hdiv
    obtain ⟨hh2, hv2, hd2⟩ := hexDigitUpper_spec _ hmod
    have h1 : replaceDash (quoteChar c) =
        ['%', hexDigitUpper (c.toNat / 16), hexDigitUpper (c.toNat % 16)] := by
      simp [quoteChar, hsafe, replaceDash, hd1, hd2]
    rw [h1]
    have hx : (isHexDig (hexDigitUpper (c.toNat / 16)) &&
        isHexDig (hexDigitUpper (c.toNat % 16))) = true := by
      simp [hh1, hh2]
    have hback : c.toNat / 16 * 16 + c.toNat % 16 = c.toNat := by omega
    have hv : Char.ofNat (hexVal (hexDigitUpper (c.toNat / 16)) * 16 +
        hexVal (hexDigitUpper (c.toNat % 16))) = c := by
      rw [hv1, hv2, hback, Char.ofNat_toNat]
    simp [pyUnquote, hx, hv]

/-- Helper: decode inverts encode on ASCII character lists. -/
theorem pyUnquote_replaceDash_pyQuote :
    ∀ s : List Char, (∀ c ∈ s, c.toNat < 128) →
      pyUnquote (replaceDash (pyQuote s)) = s := by
  intro s h
  induction s with
  | nil => simp [pyQuote, replaceDash, pyUnquote]
  | cons c t ih =>
    have hc : c.toNat < 128 := h c (List.mem_cons_self c t)
    have hstep : pyQuote (c :: t) = quoteChar c ++ pyQuote t := by
      simp [pyQuote]
    rw [hstep]
    have hsplit : replaceDash (quoteChar c ++ pyQuote t) =
        replaceDash (quoteChar c) ++ replaceDash (pyQuote t) := by
      simp [replaceDash]
    rw [hsplit, pyUnquote_encChar c hc]
    rw [ih (fun d hd => h d (List.mem_cons_of_mem c hd))]

/-- Claim C5: the storage name encoding round-trips - for every ASCII
string without embedded NUL characters, decoding the encoding gives the
string back; and the encoding maps "simple" to "simple", "with space"
to "with%20space", "with-dash" to "with%2Ddash" and "with/slash" to
"with%2Fslash", each of which decodes back. -/
theorem storage_safe_encode_decode_roundtrip :
    (∀ s : List Char, (∀ c ∈ s, c.toNat < 128 ∧ c ≠ Char.ofNat 0) →
      storage_safe_decode (storage_safe_encode s) = s) ∧
    storage_safe_encode (String.toList "simple") = String.toList "simple" ∧
    storage_safe_encode (String.toList "with space") = String.toList "with%20space" ∧
    storage_safe_encode (String.toList "with-dash") = String.toList "with%2Ddash" ∧
    storage_safe_encode (String.toList "with/slash") = String.toList "with%2Fslash" ∧
    storage_safe_decode (String.toList "with%20space") = String.toList "with space" ∧
    storage_safe_decode (String.toList "with%2Ddash") = String.toList "with-dash" ∧
    storage_safe_decode (String.toList "with%2Fslash") = String.toList "with/slash" := by
  have hrt : ∀ s : List Char, (∀ c ∈ s, c.toNat < 128) →
      storage_safe_decode (storage_safe_encode s) = s :=
    fun s h => pyUnquote_replaceDash_pyQuote s h
  have hdec : ∀ plain enc : String,
      storage_safe_encode (String.toList plain) = String.toList enc →
      (∀ c ∈ String.toList plain, c.toNat < 128) →
      storage_safe_decode (String.toList enc) = String.toList plain := by
    intro plain enc he hascii
    rw [← he]
    exact hrt _ hascii
  refine ⟨fun s h => hrt s (fun c hc => (h c hc).1),
    by decide, by decide, by decide, by decide,
    hdec "with space" "with%20space" (by decide) (by decide),
    hdec "with-dash" "with%2Ddash" (by decide) (by decide),
    hdec "with/slash" "with%2Fslash" (by decide) (by decide)⟩

/-- Helper: one decompress step from a state whose method is fixed. -/
theorem decompressStep_of_method (inner : CompressionFmt → List (List Nat) → List Nat → List Nat)
    (s : DecompressorState) (f : CompressionFmt) (c : List Nat) (h : s.method = some f) :
    decompressStep inner s c =
      (⟨some f, s.fedChunks ++ [c]⟩, methodOutput inner f s.fedChunks c) := by
  simp [decompressStep, h]

/-- Helper: a method once chosen never changes. -/
theorem decompressRun_method_persists
    (inner : CompressionFmt → List (List Nat) → List Nat → List Nat) :
    ∀ (cs : List (List Nat)) (s : DecompressorState) (f : CompressionFmt),
      s.method = some f → (decompressRun inner s cs).1.method = some f := by
  intro cs
  induction cs with
  | nil => intro s f h; simpa [decompressRun] using h
  | cons c t ih =>
    intro s f h
    simp only [decompressRun, decompressStep_of_method inner s f c h]
    exact ih _ f rfl

/-- Helper: with the plain method every call echoes its chunk. -/
theorem decompressRun_plain_id
    (inner : CompressionFmt → List (List Nat) → List Nat → List Nat) :
    ∀ (cs : List (List Nat)) (s : DecompressorState),
      s.method = some CompressionFmt.plain → (decompressRun inner s cs).2 = cs := by
  intro cs
  induction cs with
  | nil => intro s _; simp [decompressRun]
  | cons c t ih =>
    intro s h
    simp only [decompressRun, decompressStep_of_method inner s _ c h]
    simp only [methodOutput]
    rw [ih _ rfl]

/-- Helper: every call produces exactly one output. -/
theorem decompressRun_length
    (inner : CompressionFmt → List (List Nat) → List Nat → List Nat) :
    ∀ (cs : List (List Nat)) (s : DecompressorState),
      (decompressRun inner s cs).2.length = cs.length := by
  intro cs
  induction cs with
  | nil => intro s; simp [decompressRun]
  | cons c t ih =>
    intro s
    simp only [decompressRun, List.length_cons]
    rw [ih]

/-- Claim C8: the compression family is chosen once, from the magic
bytes prefixing the first chunk ever fed in (gzip 1f 8b, bzip2
42 5a 68, xz fd 37 7a 58 5a 00, tried in that order), and stays fixed
for every later call; when no magic matches the first chunk every call,
the first included, returns exactly its input; the first call's output
is produced immediately from the first chunk by the chosen method, and
every call produces exactly one output. -/
theorem stream_decompressor_spec :
    (∀ r : List Nat, detectFmt (0x1f :: 0x8b :: r) = CompressionFmt.gzip) ∧
    (∀ r : List Nat, detectFmt (0x42 :: 0x5a :: 0x68 :: r) = CompressionFmt.bz2) ∧
    (∀ r : List Nat,
      detectFmt (0xfd :: 0x37 :: 0x7a :: 0x58 :: 0x5a :: 0x00 :: r) = CompressionFmt.xz) ∧
    (∀ (inner : CompressionFmt → List (List Nat) → List Nat → List Nat)
        (c : List Nat) (cs : List (List Nat)),
      (decompressRun inner initDecompressor (c :: cs)).1.method = some (detectFmt c)) ∧
    (∀ (inner : CompressionFmt → List (List Nat) → List Nat → List Nat)
        (c : List Nat) (cs : List (List Nat)),
      detectFmt c = CompressionFmt.plain →
      (decompressRun inner initDecompressor (c :: cs)).2 = c :: cs) ∧
    (∀ (inner : CompressionFmt → List (List Nat) → List Nat → List Nat)
        (c : List Nat) (cs : List (List Nat)),
      (decompressRun inner initDecompressor (c :: cs)).2.head? =
        some (methodOutput inner (detectFmt c) [] c)) ∧
    (∀ (inner : CompressionFmt → List (List Nat) → List Nat → List Nat)
        (s : DecompressorState) (cs : List (List Nat)),
      (decompressRun inner s cs).2.length = cs.length) := by
  have hfirst : ∀ (inner : CompressionFmt → List (List Nat) → List Nat → List Nat)
      (c : List Nat),
      decompressStep inner initDecompressor c =
        (⟨some (detectFmt c), [c]⟩, methodOutput inner (detectFmt c) [] c) := by
    intro inner c
    simp [decompressStep, initDecompressor]
  refine ⟨?_, ?_, ?_, ?_, ?_, ?_, fun inner s cs => decompressRun_length inner cs s⟩
  · intro r; simp [detectFmt, gzipMagic, List.isPrefixOf]
  · intro r
    simp [detectFmt, gzipMagic, bz2Magic, List.isPrefixOf]
  · intro r
    simp [detectFmt, gzipMagic, bz2Magic, xzMagic, List.isPrefixOf]
  · intro inner c cs
    simp only [decompressRun, hfirst]
    exact decompressRun_method_persists inner cs _ _ rfl
  · intro inner c cs h
    simp only [decompressRun, hfirst, h, methodOutput]
    rw [decompressRun_plain_id inner cs _ rfl]
  · intro inner c cs
    simp [decompressRun, hfirst]

/-- Helper: the probe loop times out when the deadline has passed. -/
theorem timedConnectionLoop_timeout (rc : Nat → Int) (dur : Nat → Nat)
    (probe real : SpawnRecord) (i remaining : Nat) (h : ¬ 0 < remaining) :
    timedConnectionLoop rc dur probe real i remaining = ([], .timedOut) := by
  unfold timedConnectionLoop
  simp [h]

/-- Helper: a 255 probe sleeps and retries. -/
theorem timedConnectionLoop_retry (rc : Nat → Int) (dur : Nat → Nat)
    (probe real : SpawnRecord) (i remaining : Nat) (h0 : 0 < remaining)
    (h : rc i = 255) :
    timedConnectionLoop rc dur probe real i remaining =
      ((probe, rc i) ::
        (timedConnectionLoop rc dur probe real (i + 1)
          (remaining - (dur i + SSH_CONNECTION_TIME_BETWEEN_TRIES))).1,
       (timedConnectionLoop rc dur probe real (i + 1)
          (remaining - (dur i + SSH_CONNECTION_TIME_BETWEEN_TRIES))).2) := by
  conv_lhs => unfold timedConnectionLoop
  simp [h0, h]

/-- Helper: a 0 probe spawns the real session. -/
theorem timedConnectionLoop_connect (rc : Nat → Int) (dur : Nat → Nat)
    (probe real : SpawnRecord) (i remaining : Nat) (h0 : 0 < remaining)
    (h : ¬ rc i = 255) (h2 : rc i = 0) :
    timedConnectionLoop rc dur probe real i remaining =
      ([(probe, rc i)], .connected real) := by
  unfold timedConnectionLoop
  simp [h0, h, h2]

/-- Helper: any other probe exit code is fatal at once. -/
theorem timedConnectionLoop_fatal (rc : Nat → Int) (dur : Nat → Nat)
    (probe real : SpawnRecord) (i remaining : Nat) (h0 : 0 < remaining)
    (h : ¬ rc i = 255) (h2 : ¬ rc i = 0) :
    timedConnectionLoop rc dur probe real i remaining =
      ([(probe, rc i)], .fatalExit (rc i)) := by
  unfold timedConnectionLoop
  simp [h0, h, h2]

/-- Helper: the probe loop's behaviour, by strong induction on the
remaining time: every spawn in the probe list is the probe spawn, every
probe but the last returned 255, a connected outcome spawns the real
session after a 0 probe, a fatal outcome carries a code that is neither
0 nor 255 from the last probe, and a timeout means every probe
returned 255. -/
theorem timedConnectionLoop_spec (rc : Nat → Int) (dur : Nat → Nat)
    (probe real : SpawnRecord) :
    ∀ remaining i : Nat,
      (∀ pr ∈ (timedConnectionLoop rc dur probe real i remaining).1, pr.1 = probe) ∧
      (∀ pr ∈ (timedConnectionLoop rc dur probe real i remaining).1.dropLast,
        pr.2 = 255) ∧
      (∀ sess, (timedConnectionLoop rc dur probe real i remaining).2 =
          SshOutcome.connected sess →
        sess = real ∧ (probe, (0 : Int)) ∈ (timedConnectionLoop rc dur probe real i remaining).1) ∧
      (∀ code, (timedConnectionLoop rc dur probe real i remaining).2 =
          SshOutcome.fatalExit code →
        code ≠ 0 ∧ code ≠ 255 ∧ (probe, code) ∈ (timedConnectionLoop rc dur probe real i remaining).1) ∧
      ((timedConnectionLoop rc dur probe real i remaining).2 = SshOutcome.timedOut →
        ∀ pr ∈ (timedConnectionLoop rc dur probe real i remaining).1, pr.2 = 255) := by
  intro remaining
  induction remaining using Nat.strong_induction_on with
  | _ remaining ih =>
    intro i
    by_cases h0 : 0 < remaining
    · by_cases h255 : rc i = 255
      · rw [timedConnectionLoop_retry rc dur probe real i remaining h0 h255]
        have hlt : remaining - (dur i + SSH_CONNECTION_TIME_BETWEEN_TRIES) < remaining :=
          Nat.sub_lt h0 (by simp only [SSH_CONNECTION_TIME_BETWEEN_TRIES]; omega)
        obtain ⟨ha, hb, hc, hd, he⟩ := ih _ hlt (i + 1)
        refine ⟨?_, ?_, ?_, ?_, ?_⟩
        · intro pr hpr
          rcases List.mem_cons.mp hpr with h1 | h1
          · rw [h1]
          · exact ha pr h1
        · rcases hrest : (timedConnectionLoop rc dur probe real (i + 1)
              (remaining - (dur i + SSH_CONNECTION_TIME_BETWEEN_TRIES))).1 with _ | ⟨y, ys⟩
          · simp
          · intro pr hpr
            simp only [List.dropLast] at hpr
            rcases List.mem_cons.mp hpr with h1 | h1
            · rw [h1, h255]
            · rw [hrest] at hb
              exact hb pr (by simpa [List.dropLast] using h1)
        · intro sess hsess
          obtain ⟨h1, h2⟩ := hc sess hsess
          exact ⟨h1, List.mem_cons_of_mem _ h2⟩
        · intro code hcode
          obtain ⟨h1, h2, h3⟩ := hd code hcode
          exact ⟨h1, h2, List.mem_cons_of_mem _ h3⟩
        · intro hout pr hpr
          rcases List.mem_cons.mp hpr with h1 | h1
          · rw [h1, h255]
          · exact he hout pr h1
      · by_cases hzero : rc i = 0
        · rw [timedConnectionLoop_connect rc dur probe real i remaining h0 h255 hzero]
          refine ⟨?_, ?_, ?_, ?_, ?_⟩
          · intro pr hpr
            rcases List.mem_cons.mp hpr with h1 | h1
            · rw [h1]
            · cases h1
          · simp
          · intro sess hsess
            refine ⟨by injection hsess with h; exact h.symm, ?_⟩
            rw [← hzero]
            exact List.mem_cons_self _ _
          · intro code hcode
            cases hcode
          · intro hout
            cases hout
        · rw [timedConnectionLoop_fatal rc dur probe real i remaining h0 h255 hzero]
          refine ⟨?_, ?_, ?_, ?_, ?_⟩
          · intro pr hpr
            rcases List.mem_cons.mp hpr with h1 | h1
            · rw [h1]
            · cases h1
          · simp
          · intro sess hsess
            cases hsess
          · intro code hcode
            refine ⟨?_, ?_, ?_⟩
            · injection hcode with h
              rw [← h]
              exact hzero
            · injection hcode with h
              rw [← h]
              exact h255
            · injection hcode with h
              rw [← h]
              exact List.mem_cons_self _ _
          · intro hout
            cases hout
    · rw [timedConnectionLoop_timeout rc dur probe real i remaining h0]
      refine ⟨?_, ?_, ?_, ?_, ?_⟩
      · intro pr hpr
        cases hpr
      · intro pr hpr
        cases hpr
      · intro sess hsess
        cases hsess
      · intro code hcode
        cases hcode
      · intro _ pr hpr
        cases hpr

/-- Claim C9: the SSH connection is two-phase - every probe spawned by
`timed_connection` runs the command without the user command, with
stdin bound to null and its output captured; every probe but the last
exited 255 (the only code that retries); a connected outcome spawns the
real session with the full command and the caller-supplied stdio
plumbing, after a probe exited 0; a fatal error carries a probe exit
code that is neither 0 nor 255; a timeout means every probe exited 255;
and a zero deadline times out immediately with no probe at all. -/
theorem timed_connection_spec :
    ∀ (base : List String) (userCmd : Option String) (sIn sOut sErr : SshFile)
      (rc : Nat → Int) (dur : Nat → Nat) (timeout : Nat),
      (∀ pr ∈ (timed_connection base userCmd sIn sOut sErr rc dur timeout).1,
        pr.1 = ⟨prepareSshCommand base none, .devnull, .pipeCapture, .pipeCapture⟩) ∧
      (∀ pr ∈ (timed_connection base userCmd sIn sOut sErr rc dur timeout).1.dropLast,
        pr.2 = 255) ∧
      (∀ sess, (timed_connection base userCmd sIn sOut sErr rc dur timeout).2 =
          SshOutcome.connected sess →
        sess = ⟨prepareSshCommand base userCmd, sIn, sOut, sErr⟩ ∧
        (⟨⟨prepareSshCommand base none, .devnull, .pipeCapture, .pipeCapture⟩, (0 : Int)⟩ : SpawnRecord × Int) ∈
          (timed_connection base userCmd sIn sOut sErr rc dur timeout).1) ∧
      (∀ code, (timed_connection base userCmd sIn sOut sErr rc dur timeout).2 =
          SshOutcome.fatalExit code → code ≠ 0 ∧ code ≠ 255) ∧
      ((timed_connection base userCmd sIn sOut sErr rc dur timeout).2 =
          SshOutcome.timedOut →
        ∀ pr ∈ (timed_connection base userCmd sIn sOut sErr rc dur timeout).1,
          pr.2 = 255) ∧
      (timed_connection base userCmd sIn sOut sErr rc dur 0 = ([], .timedOut)) := by
  intro base userCmd sIn sOut sErr rc dur timeout
  obtain ⟨ha, hb, hc, hd, he⟩ := timedConnectionLoop_spec rc dur
    ⟨prepareSshCommand base none, .devnull, .pipeCapture, .pipeCapture⟩
    ⟨prepareSshCommand base userCmd, sIn, sOut, sErr⟩ timeout 0
  exact ⟨ha, hb, hc, fun code h => ⟨(hd code h).1, (hd code h).2.1⟩, he,
    timedConnectionLoop_timeout _ _ _ _ 0 0 (by omega)⟩

/-- Helper: a comma-free spec string that does not end in a newline is
consumed whole as the name group. -/
theorem nameLoop_no_comma :
    ∀ (s acc : List Char), s ≠ [] → (∀ c ∈ s, c ≠ ',') →
      s.getLast? ≠ some '\n' → nameLoop acc s = some (acc ++ s, none) := by
  intro s
  induction s with
  | nil => intro acc h; exact absurd rfl h
  | cons c rest ih =>
    intro acc _ hnc hlast
    have hc : c ≠ ',' := hnc c (List.mem_cons_self c rest)
    match rest with
    | [] =>
      simp [nameLoop, hc, matchEnd]
    | d :: t =>
      have hd : d ≠ ',' := hnc d (List.mem_cons_of_mem c (List.mem_cons_self d t))
      have hlast2 : (d :: t).getLast? ≠ some '\n' := by
        rwa [List.getLast?_cons_cons] at hlast
      have hend : matchEnd (d :: t) = false := by
        match t with
        | [] =>
          have hdn : d ≠ '\n' := by
            intro he
            apply hlast2
            rw [he]
            rfl
          simp [matchEnd, hdn]
        | x :: xs => rfl
      have hrec := ih (acc ++ [c]) (by simp)
        (fun e he => hnc e (List.mem_cons_of_mem c he)) hlast2
      conv_lhs => rw [nameLoop]
      rw [if_neg hc]
      rw [if_neg hd, hend]
      simp only [Bool.false_eq_true, if_false]
      rw [hrec]
      simp

/-- Helper: every name the spec regex captures is comma-free (group 1
is `[^,]+?`). -/
theorem nameLoop_name_no_comma :
    ∀ (s acc nm : List Char) (o : Option (List Char × List Char)),
      (∀ c ∈ acc, c ≠ ',') → nameLoop acc s = some (nm, o) → ∀ c ∈ nm, c ≠ ',' := by
  intro s
  induction s with
  | nil =>
    intro acc nm o _ heq
    rw [nameLoop] at heq
    exact Option.noConfusion heq
  | cons c rest ih =>
    intro acc nm o hacc heq
    by_cases hc : c = ','
    · cases rest with
      | nil =>
        rw [nameLoop, if_pos hc] at heq
        exact Option.noConfusion heq
      | cons d t =>
        rw [nameLoop, if_pos hc] at heq
        exact Option.noConfusion heq
    · have hacc2 : ∀ e ∈ acc ++ [c], e ≠ ',' := by
        intro e he
        rcases List.mem_append.mp he with h1 | h1
        · exact hacc e h1
        · rw [List.mem_singleton.mp h1]
          exact hc
      cases rest with
      | nil =>
        rw [nameLoop, if_neg hc] at heq
        rw [show matchEnd [] = true from rfl, if_pos rfl] at heq
        simp only [Option.some.injEq, Prod.mk.injEq] at heq
        obtain ⟨h1, _⟩ := heq
        intro e he
        rw [← h1] at he
        exact hacc2 e he
      | cons d t =>
        rw [nameLoop, if_neg hc] at heq
        by_cases hd : d = ','
        · rw [if_pos hd] at heq
          cases hps : psGo [] t with
          | some ps =>
            rw [hps] at heq
            simp only [Option.some.injEq, Prod.mk.injEq] at heq
            obtain ⟨h1, _⟩ := heq
            intro e he
            rw [← h1] at he
            exact hacc2 e he
          | none =>
            rw [hps] at heq
            exact ih (acc ++ [c]) nm o hacc2 heq
        · rw [if_neg hd] at heq
          by_cases hm : matchEnd (d :: t) = true
          · rw [if_pos hm] at heq
            simp only [Option.some.injEq, Prod.mk.injEq] at heq
            obtain ⟨h1, _⟩ := heq
            intro e he
            rw [← h1] at he
            exact hacc2 e he
          · rw [if_neg hm] at heq
            exact ih (acc ++ [c]) nm o hacc2 heq

/-- Claim C7: parsing an image spec with no protocol part (a nonempty
comma-free string, not ending in a newline, which `$` would shift)
yields the vagrant protocol with the name as source; every `name` a
successful parse produces is comma-free; the empty-name spec
",sometext" is an invalid-spec parse error; and "img,unknownspec=x"
fails with the unknown-protocol error; concretely "img" parses to
vagrant with source "img". -/
theorem image_spec_parse_spec :
    (∀ s : List Char, s ≠ [] → (∀ c ∈ s, c ≠ ',') → s.getLast? ≠ some '\n' →
      imageSpecInit s = Except.ok ⟨s, ImageProto.vagrant, s⟩) ∧
    (∀ (s : List Char) (r : ParsedImageSpec), imageSpecInit s = Except.ok r →
      ∀ c ∈ r.name, c ≠ ',') ∧
    imageSpecInit (String.toList ",sometext") = Except.error ImageSpecError.invalidSpec ∧
    imageSpecInit (String.toList "img,unknownspec=x") =
      Except.error ImageSpecError.unknownProto ∧
    imageSpecInit (String.toList "img") =
      Except.ok ⟨String.toList "img", ImageProto.vagrant, String.toList "img"⟩ := by
  refine ⟨?_, ?_, by decide, by decide, by decide⟩
  · intro s hne hnc hlast
    have h := nameLoop_no_comma s [] hne hnc hlast
    simp only [List.nil_append] at h
    simp [imageSpecInit, h]
  · intro s r heq
    cases hnl : nameLoop [] s with
    | none => simp [imageSpecInit, hnl] at heq
    | some p =>
      obtain ⟨nm, o⟩ := p
      have hnm : ∀ c ∈ nm, c ≠ ',' :=
        nameLoop_name_no_comma s [] nm o (by simp) hnl
      cases o with
      | none =>
        simp only [imageSpecInit, hnl, Except.ok.injEq] at heq
        rw [← heq]
        exact hnm
      | some ps =>
        obtain ⟨proto, src⟩ := ps
        cases hp : protoLookup proto with
        | none => simp [imageSpecInit, hnl, hp] at heq
        | some pr =>
          simp only [imageSpecInit, hnl, hp, Except.ok.injEq] at heq
          rw [← heq]
          exact hnm

/-- Helper: the machine section equals the FROM section exactly after a
FROM instruction. -/
theorem sectionOf_eq_fromSec (i : Instr) :
    sectionOf i = ImagefileSection.fromSec ↔ isFrom i = true := by
  cases i <;> simp [sectionOf, isFrom]

/-- Helper: the machine section is the DISK or PARTITION section
exactly after a DISK or PARTITION instruction. -/
theorem sectionOf_eq_diskOrPart (i : Instr) :
    (sectionOf i = ImagefileSection.diskSec ∨ sectionOf i = ImagefileSection.partSec) ↔
      (isDisk i = true ∨ isPart i = true) := by
  cases i <;> simp [sectionOf, isDisk, isPart]

/-- Helper: the adjacency condition is vacuous before an instruction
that is neither DISK nor PARTITION. -/
theorem adjacencyOk_of_other (prev i : Instr) (h1 : isDisk i = false)
    (h2 : isPart i = false) : adjacencyOk prev i := by
  constructor
  · intro h
    rw [h1] at h
    cases h
  · intro h
    rw [h2] at h
    cases h

/-- Helper: the ordering state machine resumed after an instruction
accepts exactly the programs whose remaining instructions satisfy the
spec's adjacency conditions and contain no further FROM. -/
theorem sectionCheck_some_iff :
    ∀ (rest : List Instr) (prev : Instr),
      sectionCheck (some (sectionOf prev)) rest = Except.ok () ↔
      (List.Chain' adjacencyOk (prev :: rest) ∧ fromSources rest = []) := by
  intro rest
  induction rest with
  | nil => intro prev; simp [sectionCheck, fromSources]
  | cons i t ih =>
    intro prev
    cases i with
    | fromI s => simp [sectionCheck, fromSources]
    | disk =>
      by_cases hprev : isFrom prev = true
      · have hsec : some (sectionOf prev) = some ImagefileSection.fromSec := by
          rw [(sectionOf_eq_fromSec prev).mpr hprev]
        simp only [sectionCheck, hsec, if_true]
        rw [show sectionCheck (some ImagefileSection.diskSec) t =
          sectionCheck (some (sectionOf Instr.disk)) t from rfl]
        rw [ih Instr.disk, List.chain'_cons]
        constructor
        · rintro ⟨h1, h2⟩
          exact ⟨⟨⟨fun _ => hprev, fun h => by cases h⟩, h1⟩, by
            simpa [fromSources] using h2⟩
        · rintro ⟨⟨_, h1⟩, h2⟩
          exact ⟨h1, by simpa [fromSources] using h2⟩
      · have hsec : ¬ some (sectionOf prev) = some ImagefileSection.fromSec := by
          intro h
          exact hprev ((sectionOf_eq_fromSec prev).mp (Option.some.inj h))
        simp only [sectionCheck, if_neg hsec]
        constructor
        · intro h
          cases h
        · rintro ⟨h1, _⟩
          rw [List.chain'_cons] at h1
          exact absurd (h1.1.1 rfl) hprev
    | part m =>
      by_cases hprev : isDisk prev = true ∨ isPart prev = true
      · have hsec : some (sectionOf prev) = some ImagefileSection.diskSec ∨
            some (sectionOf prev) = some ImagefileSection.partSec := by
          rcases (sectionOf_eq_diskOrPart prev).mpr hprev with h | h
          · exact Or.inl (by rw [h])
          · exact Or.inr (by rw [h])
        simp only [sectionCheck, if_pos hsec]
        rw [show sectionCheck (some ImagefileSection.partSec) t =
          sectionCheck (some (sectionOf (Instr.part m))) t from rfl]
        rw [ih (Instr.part m), List.chain'_cons]
        constructor
        · rintro ⟨h1, h2⟩
          have hadj : adjacencyOk prev (Instr.part m) := by
            constructor
            · intro h
              cases h
            · intro _
              exact hprev
          exact ⟨⟨hadj, h1⟩, by simpa [fromSources] using h2⟩
        · rintro ⟨⟨_, h1⟩, h2⟩
          exact ⟨h1, by simpa [fromSources] using h2⟩
      · have hsec : ¬ (some (sectionOf prev) = some ImagefileSection.diskSec ∨
            some (sectionOf prev) = some ImagefileSection.partSec) := by
          intro h
          apply hprev
          apply (sectionOf_eq_diskOrPart prev).mp
          rcases h with h | h
          · exact Or.inl (Option.some.inj h)
          · exact Or.inr (Option.some.inj h)
        simp only [sectionCheck, if_neg hsec]
        constructor
        · intro h
          cases h
        · rintro ⟨h1, _⟩
          rw [List.chain'_cons] at h1
          exact absurd (h1.1.2 rfl) hprev
    | add =>
      simp only [sectionCheck]
      rw [show sectionCheck (some ImagefileSection.execSec) t =
        sectionCheck (some (sectionOf Instr.add)) t from rfl]
      rw [ih Instr.add, List.chain'_cons]
      have hadj : adjacencyOk prev Instr.add := adjacencyOk_of_other prev _ rfl rfl
      constructor
      · rintro ⟨h1, h2⟩
        exact ⟨⟨hadj, h1⟩, by simpa [fromSources] using h2⟩
      · rintro ⟨⟨_, h1⟩, h2⟩
        exact ⟨h1, by simpa [fromSources] using h2⟩
    | copy =>
      simp only [sectionCheck]
      rw [show sectionCheck (some ImagefileSection.execSec) t =
        sectionCheck (some (sectionOf Instr.copy)) t from rfl]
      rw [ih Instr.copy, List.chain'_cons]
      have hadj : adjacencyOk prev Instr.copy := adjacencyOk_of_other prev _ rfl rfl
      constructor
      · rintro ⟨h1, h2⟩
        exact ⟨⟨hadj, h1⟩, by simpa [fromSources] using h2⟩
      · rintro ⟨⟨_, h1⟩, h2⟩
        exact ⟨h1, by simpa [fromSources] using h2⟩
    | runI =>
      simp only [sectionCheck]
      rw [show sectionCheck (some ImagefileSection.execSec) t =
        sectionCheck (some (sectionOf Instr.runI)) t from rfl]
      rw [ih Instr.runI, List.chain'_cons]
      have hadj : adjacencyOk prev Instr.runI := adjacencyOk_of_other prev _ rfl rfl
      constructor
      · rintro ⟨h1, h2⟩
        exact ⟨⟨hadj, h1⟩, by simpa [fromSources] using h2⟩
      · rintro ⟨⟨_, h1⟩, h2⟩
        exact ⟨h1, by simpa [fromSources] using h2⟩
    | inspect =>
      simp only [sectionCheck]
      rw [show sectionCheck (some ImagefileSection.execSec) t =
        sectionCheck (some (sectionOf Instr.inspect)) t from rfl]
      rw [ih Instr.inspect, List.chain'_cons]
      have hadj : adjacencyOk prev Instr.inspect := adjacencyOk_of_other prev _ rfl rfl
      constructor
      · rintro ⟨h1, h2⟩
        exact ⟨⟨hadj, h1⟩, by simpa [fromSources] using h2⟩
      · rintro ⟨⟨_, h1⟩, h2⟩
        exact ⟨h1, by simpa [fromSources] using h2⟩

/-- Helper: the DISK count of a program, one instruction at a time. -/
theorem diskCount_cons (i : Instr) (t : List Instr) :
    diskCount (i :: t) = diskCount t + (if isDisk i = true then 1 else 0) := by
  simp only [diskCount, List.filter_cons]
  split
  · simp [List.length_cons]
  · simp

/-- Helper: under the adjacency invariants and with no FROM in the tail,
the tail holds at most one DISK, and none unless the previous
instruction was the FROM. -/
theorem chain_diskCount_le :
    ∀ (rest : List Instr) (prev : Instr),
      List.Chain' adjacencyOk (prev :: rest) → fromSources rest = [] →
      diskCount rest ≤ (if isFrom prev = true then 1 else 0) := by
  intro rest
  induction rest with
  | nil =>
    intro prev _ _
    have : diskCount ([] : List Instr) = 0 := rfl
    rw [this]
    exact Nat.zero_le _
  | cons i t ih =>
    intro prev hchain hfrom
    rw [List.chain'_cons] at hchain
    obtain ⟨hadj, hchain2⟩ := hchain
    have hsplit : isFrom i = false ∧ fromSources t = [] := by
      cases i <;> simp_all [fromSources, isFrom]
    obtain ⟨hif, hft⟩ := hsplit
    have iht := ih i hchain2 hft
    rw [hif] at iht
    simp only [Bool.false_eq_true, if_false, Nat.le_zero] at iht
    cases hdisk : isDisk i with
    | true =>
      rw [if_pos (hadj.1 hdisk), diskCount_cons, hdisk, if_pos rfl]
      omega
    | false =>
      rw [diskCount_cons, hdisk]
      simp only [Bool.false_eq_true, if_false]
      split <;> omega

/-- Helper: an accepted program under the full state machine starts
with FROM, and its tail satisfies the adjacency invariants with no
further FROM. -/
theorem sectionCheck_none_ok :
    ∀ p : List Instr, sectionCheck none p = Except.ok () →
      (fromSources p).length = 1 →
      ∃ src rest, p = Instr.fromI src :: rest ∧ List.Chain' adjacencyOk p ∧
        fromSources rest = [] := by
  intro p hok hlen
  cases p with
  | nil => simp [fromSources] at hlen
  | cons i rest =>
    cases i with
    | fromI s =>
      have h2 : sectionCheck (some (sectionOf (Instr.fromI s))) rest = Except.ok () := hok
      obtain ⟨hchain, hrest⟩ := (sectionCheck_some_iff rest (Instr.fromI s)).mp h2
      exact ⟨s, rest, rfl, hchain, hrest⟩
    | disk => simp [sectionCheck] at hok
    | part m => simp [sectionCheck] at hok
    | add =>
      obtain ⟨_, hrest⟩ := (sectionCheck_some_iff rest Instr.add).mp hok
      rw [show fromSources (Instr.add :: rest) = fromSources rest from rfl, hrest] at hlen
      simp at hlen
    | copy =>
      obtain ⟨_, hrest⟩ := (sectionCheck_some_iff rest Instr.copy).mp hok
      rw [show fromSources (Instr.copy :: rest) = fromSources rest from rfl, hrest] at hlen
      simp at hlen
    | runI =>
      obtain ⟨_, hrest⟩ := (sectionCheck_some_iff rest Instr.runI).mp hok
      rw [show fromSources (Instr.runI :: rest) = fromSources rest from rfl, hrest] at hlen
      simp at hlen
    | inspect =>
      obtain ⟨_, hrest⟩ := (sectionCheck_some_iff rest Instr.inspect).mp hok
      rw [show fromSources (Instr.inspect :: rest) = fromSources rest from rfl, hrest] at hlen
      simp at hlen

/-- Helper: `validate` accepts exactly the programs satisfying the
spec's Imagefile invariants. -/
theorem validate_ok_iff (p : List Instr) :
    validate p = Except.ok () ↔ specWellFormed p := by
  constructor
  · intro h
    cases hfs : fromSources p with
    | nil => simp [validate, hfs] at h
    | cons src tl =>
      cases tl with
      | cons b tb => simp [validate, hfs] at h
      | nil =>
        simp only [validate, hfs] at h
        by_cases hd1 : diskCount p > 1
        · rw [if_pos hd1] at h
          cases h
        · rw [if_neg hd1] at h
          have hsec_and_extras : sectionCheck none p = Except.ok () ∧
              (pyLower src = "scratch" →
                diskCount p ≠ 0 ∧ (partMounts p).length ≠ 0 ∧
                  (partMounts p).any (fun m => m == some "/") = true) ∧
              (pyLower src ≠ "scratch" →
                diskCount p = 0 ∧ (partMounts p).length = 0) := by
            by_cases hscr : pyLower src = "scratch"
            · rw [if_pos hscr] at h
              by_cases hd0 : diskCount p = 0
              · rw [if_pos hd0] at h
                cases h
              · rw [if_neg hd0] at h
                by_cases hp0 : (partMounts p).length = 0
                · rw [if_pos hp0] at h
                  cases h
                · rw [if_neg hp0] at h
                  cases hany : (partMounts p).any (fun m => m == some "/") with
                  | false =>
                    rw [hany] at h
                    simp at h
                  | true =>
                    rw [hany] at h
                    simp only [Bool.not_true, Bool.false_eq_true, if_false] at h
                    exact ⟨h, fun _ => ⟨hd0, hp0, rfl⟩, fun hne => absurd hscr hne⟩
            · rw [if_neg hscr] at h
              by_cases hz : diskCount p > 0 ∨ (partMounts p).length > 0
              · rw [if_pos hz] at h
                cases h
              · rw [if_neg hz] at h
                push_neg at hz
                exact ⟨h, fun hs => absurd hs hscr,
                  fun _ => ⟨by omega, by omega⟩⟩
          obtain ⟨hsc, hscratch, hnot⟩ := hsec_and_extras
          obtain ⟨src', rest, hp, hchain, hrest⟩ :=
            sectionCheck_none_ok p hsc (by rw [hfs]; rfl)
          have hsrc : src' = src := by
            rw [hp] at hfs
            rw [show fromSources (Instr.fromI src' :: rest) =
              src' :: fromSources rest from rfl, hrest] at hfs
            exact (List.cons.injEq .. ▸ hfs).1
          refine ⟨by rw [hfs]; rfl, ⟨src', rest, hp⟩, hchain, ?_⟩
          intro s2 r2 hp2
          have hs2 : s2 = src ∧ r2 = rest := by
            rw [hp] at hp2
            have h1 := (List.cons.injEq .. ▸ hp2.symm)
            exact ⟨(Instr.fromI.injEq .. ▸ h1.1) ▸ hsrc ▸ rfl, h1.2.symm ▸ rfl⟩
          obtain ⟨hs2a, _⟩ := hs2
          rw [hs2a]
          by_cases hscr : pyLower src = "scratch"
          · rw [if_pos hscr]
            obtain ⟨h1, h2, h3⟩ := hscratch hscr
            refine ⟨by omega, by omega, ?_⟩
            obtain ⟨m, hm, hbeq⟩ := List.any_eq_true.mp h3
            have : m = some "/" := by simpa using hbeq
            rw [← this]
            exact hm
          · rw [if_neg hscr]
            exact hnot hscr
  · intro hwf
    obtain ⟨hlen, ⟨src, rest, hp⟩, hchain, hcond⟩ := hwf
    subst hp
    have hfs0 : fromSources (Instr.fromI src :: rest) = src :: fromSources rest := rfl
    have hrest : fromSources rest = [] := by
      rw [hfs0] at hlen
      simp only [List.length_cons] at hlen
      exact List.length_eq_zero.mp (by omega)
    have hfs1 : fromSources (Instr.fromI src :: rest) = [src] := by
      rw [hfs0, hrest]
    have hsc : sectionCheck none (Instr.fromI src :: rest) = Except.ok () :=
      (sectionCheck_some_iff rest (Instr.fromI src)).mpr ⟨hchain, hrest⟩
    have hdc : ¬ diskCount (Instr.fromI src :: rest) > 1 := by
      have h1 := chain_diskCount_le rest (Instr.fromI src) hchain hrest
      have hfromhead : isFrom (Instr.fromI src) = true := rfl
      rw [if_pos hfromhead] at h1
      have h2 : diskCount (Instr.fromI src :: rest) = diskCount rest := by
        rw [diskCount_cons]
        simp [isDisk]
      omega
    specialize hcond src rest rfl
    simp only [validate, hfs1]
    rw [if_neg hdc]
    by_cases hscr : pyLower src = "scratch"
    · rw [if_pos hscr]
      rw [if_pos hscr] at hcond
      obtain ⟨hc1, hc2, hc3⟩ := hcond
      rw [if_neg (by omega), if_neg (by omega)]
      have hany : (partMounts (Instr.fromI src :: rest)).any
          (fun m => m == some "/") = true :=
        List.any_eq_true.mpr ⟨some "/", hc3, by simp⟩
      rw [hany]
      simp only [Bool.not_true, Bool.false_eq_true, if_false]
      exact hsc
    · rw [if_neg hscr]
      rw [if_neg hscr] at hcond
      obtain ⟨hc1, hc2⟩ := hcond
      rw [if_neg (by omega)]
      exact hsc

/-- Claim C6: `validate` accepts exactly the programs satisfying the
spec's Imagefile invariants (one FROM, FROM first, DISK immediately
after FROM, PARTITION immediately after DISK or PARTITION, and the
scratch/non-scratch DISK-PARTITION-root-mount conditions), and each
enumerated ill-formed shape is rejected with its stated error: no FROM
or two FROMs, scratch without DISK, scratch without PARTITION, scratch
with no partition mounting "/", DISK on a non-scratch image, an
instruction before FROM, a DISK not immediately after FROM, and a
PARTITION not immediately after a DISK or PARTITION; two representative
well-formed programs pass. -/
theorem imagefile_validate_spec :
    (∀ p : List Instr, validate p = Except.ok () ↔ specWellFormed p) ∧
    validate [Instr.runI] = Except.error BuildError.exactlyOneFrom ∧
    validate [Instr.fromI "a", Instr.fromI "b"] = Except.error BuildError.exactlyOneFrom ∧
    validate [Instr.fromI "scratch"] = Except.error BuildError.scratchNeedsDisk ∧
    validate [Instr.fromI "scratch", Instr.disk] =
      Except.error BuildError.scratchNeedsPartition ∧
    validate [Instr.fromI "scratch", Instr.disk, Instr.part (some "/home")] =
      Except.error BuildError.scratchNeedsRootMount ∧
    validate [Instr.fromI "img", Instr.disk] =
      Except.error BuildError.diskPartitionScratchOnly ∧
    validate [Instr.runI, Instr.fromI "img"] = Except.error BuildError.fromMustBeFirst ∧
    validate [Instr.fromI "scratch", Instr.runI, Instr.disk, Instr.part (some "/")] =
      Except.error BuildError.diskAfterFrom ∧
    validate [Instr.fromI "scratch", Instr.part (some "/"), Instr.disk] =
      Except.error BuildError.partAfterDisk ∧
    validate [Instr.fromI "scratch", Instr.disk, Instr.part (some "/"), Instr.runI] =
      Except.ok () ∧
    validate [Instr.fromI "img", Instr.runI, Instr.copy, Instr.inspect] =
      Except.ok () := by
  exact ⟨validate_ok_iff, by decide, by decide, by decide, by decide, by decide,
    by decide, by decide, by decide, by decide, by decide, by decide⟩

/-- Helper: a key found on the left of an append is found there. -/
theorem lookup_append_of_some :
    ∀ (l1 l2 : List (String × ConfigValue)) (k : String) (v : ConfigValue),
      List.lookup k l1 = some v → List.lookup k (l1 ++ l2) = some v := by
  intro l1
  induction l1 with
  | nil => intro l2 k v h; simp [List.lookup] at h
  | cons a t ih =>
    intro l2 k v h
    rw [List.cons_append]
    rw [List.lookup] at h ⊢
    cases hbeq : k == a.1 with
    | true => rw [hbeq] at h; simpa using h
    | false =>
      rw [hbeq] at h
      simp only at h ⊢
      exact ih l2 k v h

/-- Helper: looking a key up after a key-preserving map. -/
theorem lookup_map_compose (g : String → ConfigValue → ConfigValue) :
    ∀ (c : List (String × ConfigValue)) (k : String) (cv : ConfigValue),
      List.lookup k c = some cv →
      List.lookup k (c.map (fun kv => (kv.1, g kv.1 kv.2))) = some (g k cv) := by
  intro c
  induction c with
  | nil => intro k cv h; simp [List.lookup] at h
  | cons a t ih =>
    intro k cv h
    rw [List.map_cons]
    rw [List.lookup] at h ⊢
    cases hbeq : k == a.1 with
    | true =>
      rw [hbeq] at h
      simp only [Option.some.injEq] at h
      have hk : k = a.1 := eq_of_beq hbeq
      simp only [Option.some.injEq]
      rw [← h, hk]
    | false =>
      rw [hbeq] at h
      simp only at h ⊢
      exact ih k cv h

/-- Helper: composing configurations acts fieldwise on the fields of
the create side. -/
theorem lookup_run_config (c s : List (String × ConfigValue)) (k : String)
    (cv : ConfigValue) (h : List.lookup k c = some cv) :
    List.lookup k (run_config_from_create_and_start c s) =
      some (match List.lookup k s with
            | some sv => composeConfigValue cv sv
            | none => cv) := by
  unfold run_config_from_create_and_start
  apply lookup_append_of_some
  exact lookup_map_compose
    (fun key v => match List.lookup key s with
      | some sv => composeConfigValue v sv
      | none => v) c k cv h

/-- Claim C4 (against the spec-modelled composition, whose
implementation is absent from src/): for every create-side
configuration and start-side configuration, a list-valued field of the
composed run configuration is the create-side list followed by the
start-side list; a scalar field with a non-null start-side value takes
that value; a scalar field with a null start-side value, and any field
the start side lacks, keeps the create-side value; the composition also
reproduces the repository's own unit-test vectors
(test/unit/test_config.py). -/
theorem run_config_compose_spec :
    (∀ (c s : List (String × ConfigValue)) (k : String) (xs ys : List String),
      List.lookup k c = some (ConfigValue.listVal xs) →
      List.lookup k s = some (ConfigValue.listVal ys) →
      List.lookup k (run_config_from_create_and_start c s) =
        some (ConfigValue.listVal (xs ++ ys))) ∧
    (∀ (c s : List (String × ConfigValue)) (k : String) (cv : Option String) (v : String),
      List.lookup k c = some (ConfigValue.scalarVal cv) →
      List.lookup k s = some (ConfigValue.scalarVal (some v)) →
      List.lookup k (run_config_from_create_and_start c s) =
        some (ConfigValue.scalarVal (some v))) ∧
    (∀ (c s : List (String × ConfigValue)) (k : String) (cv : Option String),
      List.lookup k c = some (ConfigValue.scalarVal cv) →
      List.lookup k s = some (ConfigValue.scalarVal none) →
      List.lookup k (run_config_from_create_and_start c s) =
        some (ConfigValue.scalarVal cv)) ∧
    (∀ (c s : List (String × ConfigValue)) (k : String) (cv : ConfigValue),
      List.lookup k c = some cv → List.lookup k s = none →
      List.lookup k (run_config_from_create_and_start c s) = some cv) ∧
    run_config_from_create_and_start
      [("image", ConfigValue.listVal ["example-image"]),
       ("qemu_args", ConfigValue.listVal [])]
      [("qemu_args", ConfigValue.listVal [])] =
      [("image", ConfigValue.listVal ["example-image"]),
       ("qemu_args", ConfigValue.listVal [])] ∧
    run_config_from_create_and_start
      [("image", ConfigValue.listVal ["example-image"]),
       ("qemu_args", ConfigValue.listVal ["-smp", "2"])]
      [("qemu_args", ConfigValue.listVal ["-m", "1G"])] =
      [("image", ConfigValue.listVal ["example-image"]),
       ("qemu_args", ConfigValue.listVal ["-smp", "2", "-m", "1G"])] ∧
    run_config_from_create_and_start
      [("image", ConfigValue.listVal ["example-image"]),
       ("qemu_args", ConfigValue.listVal []),
       ("ssh_console", ConfigValue.scalarVal (some "false"))]
      [("qemu_args", ConfigValue.listVal []),
       ("ssh_console", ConfigValue.scalarVal (some "true"))] =
      [("image", ConfigValue.listVal ["example-image"]),
       ("qemu_args", ConfigValue.listVal []),
       ("ssh_console", ConfigValue.scalarVal (some "true"))] := by
  refine ⟨?_, ?_, ?_, ?_, by decide, by decide, by decide⟩
  · intro c s k xs ys h1 h2
    rw [lookup_run_config c s k _ h1, h2]
    rfl
  · intro c s k cv v h1 h2
    rw [lookup_run_config c s k _ h1, h2]
    rfl
  · intro c s k cv h1 h2
    rw [lookup_run_config c s k _ h1, h2]
    rfl
  · intro c s k cv h1 h2
    rw [lookup_run_config c s k _ h1, h2]

end TransientSpec
